import Mathlib

/-!
Shallow embedding of the multi-fidelity scheduling core of the `yamakan`
black-box optimization crate: the `Budget` counter (`src/budget.rs`), the
observation model (`src/observation.rs`), the ASHA optimizer
(`src/optimizers/asha.rs`) and the Hyperband bracket manager
(`src/optimizers/hyperband.rs`).

Machine integers (`u64`, `usize`) are embedded as `Nat`; subtraction is
`Nat` truncated subtraction (the Rust source uses checked/panicking
subtraction, so theorems that depend on a subtraction carry the
no-underflow hypothesis explicitly).  `HashMap<ObsId, _>` is embedded as
an association list with insertion-order iteration; the Rust
`Iterator::min_by_key` (first minimal element wins) and
`Iterator::max_by_key` (last maximal element wins) are embedded with the
same tie-breaking over that deterministic order.  Rust panics
(`assert!`, `unreachable!`) are embedded as a distinct `panicked`
outcome.
-/

namespace Yamakan

/-- Possible error kinds (`src/error.rs`, `enum ErrorKind`). -/
inductive ErrorKind where
  | invalidInput
  | unknownObservation
  | ioError
  | bug
  | other
deriving DecidableEq, Repr

/-- Outcome of an embedded fallible operation: `ok` mirrors `Ok`,
`err` mirrors `Err`, and `panicked` mirrors a Rust panic
(`assert!` / `unreachable!`), which is not a `Result` in the source. -/
inductive RunResult (α : Type u) where
  | ok (a : α)
  | err (e : ErrorKind)
  | panicked
deriving DecidableEq, Repr

/-! ## Budget (`src/budget.rs`)

The `budget.rs` present in the tree stores a consumption together with a
soft and a hard limit.  Every mutation is validated and returns
`ErrorKind::InvalidInput` on violation. -/

/-- `struct Budget` (`src/budget.rs`, lines 9-15). -/
structure Budget where
  consumption : Nat
  soft_limit : Nat
  hard_limit : Nat
deriving DecidableEq, Repr

namespace Budget

/-- `Budget::new(limit)` (`src/budget.rs`): zero consumption, both limits
set to `limit`. -/
def new (limit : Nat) : Budget :=
  { consumption := 0, soft_limit := limit, hard_limit := limit }

/-- `Budget::set_hard_limit`: requires `soft_limit <= limit` and
`consumption <= limit`, otherwise `InvalidInput`. -/
def set_hard_limit (b : Budget) (limit : Nat) : Except ErrorKind Budget :=
  if b.soft_limit ≤ limit then
    if b.consumption ≤ limit then
      .ok { b with hard_limit := limit }
    else .error .invalidInput
  else .error .invalidInput

/-- `Budget::set_soft_limit`: requires `limit <= hard_limit`. -/
def set_soft_limit (b : Budget) (limit : Nat) : Except ErrorKind Budget :=
  if limit ≤ b.hard_limit then
    .ok { b with soft_limit := limit }
  else .error .invalidInput

/-- `Budget::consume(amount)`: requires
`consumption + amount <= hard_limit`, otherwise `InvalidInput`;
consuming over the soft limit is allowed. -/
def consume (b : Budget) (amount : Nat) : Except ErrorKind Budget :=
  if b.consumption + amount ≤ b.hard_limit then
    .ok { b with consumption := b.consumption + amount }
  else .error .invalidInput

/-- `Budget::set_consumption(amount)`: requires
`consumption <= amount` and `amount <= hard_limit`. -/
def set_consumption (b : Budget) (amount : Nat) : Except ErrorKind Budget :=
  if b.consumption ≤ amount then
    if amount ≤ b.hard_limit then
      .ok { b with consumption := amount }
    else .error .invalidInput
  else .error .invalidInput

/-- `Budget::hard_remaining`: `hard_limit - consumption`
(unchecked `u64` subtraction in the source; truncated here). -/
def hard_remaining (b : Budget) : Nat :=
  b.hard_limit - b.consumption

/-- `Budget::soft_remaining`: `Ok(soft_limit - consumption)` when the
consumption is within the soft limit, `Err(excess)` otherwise. -/
def soft_remaining (b : Budget) : Except Nat Nat :=
  if b.consumption ≤ b.soft_limit then
    .ok (b.soft_limit - b.consumption)
  else .error (b.consumption - b.soft_limit)

end Budget

/-! ## The budget used by the schedulers

`asha.rs` and `hyperband.rs` call `Budget::new`, `budget.set_amount`,
`budget.remaining`, `budget.excess` and `budget.consumption`, an
amount/consumption interface that the `budget.rs` in the tree does not
provide (the schedulers were written against a different revision of
`budget.rs`, which is absent). -/

/-- Modelled from the spec: the `Budget { amount, consumption }` used by
`asha.rs`/`hyperband.rs` is absent from the tree; per the spec,
`remaining()` is `amount - consumption` when non-negative and `excess()`
is `consumption - amount` when over-consumed, `set_amount` overwrites
the granted amount, and `new(amount)` starts at zero consumption. -/
structure AshaBudget where
  amount : Nat
  consumption : Nat
deriving DecidableEq, Repr

namespace AshaBudget

/-- Modelled from the spec: `Budget::new(amount)` starts at zero
consumption. -/
def new (amount : Nat) : AshaBudget :=
  { amount := amount, consumption := 0 }

/-- Modelled from the spec: `remaining()` is `amount - consumption` when
non-negative (truncated `Nat` subtraction). -/
def remaining (b : AshaBudget) : Nat :=
  b.amount - b.consumption

/-- Modelled from the spec: `excess()` is `consumption - amount` when
over-consumed (truncated `Nat` subtraction). -/
def excess (b : AshaBudget) : Nat :=
  b.consumption - b.amount

/-- Modelled from the spec: `set_amount` changes the granted amount
(used exclusively by promotion). -/
def set_amount (b : AshaBudget) (n : Nat) : AshaBudget :=
  { b with amount := n }

end AshaBudget

/-- `struct Budgeted<T>` (`src/budget.rs`): a value with an attached
scheduler budget. -/
structure Budgeted (T : Type u) where
  budget : AshaBudget
  inner : T
deriving DecidableEq, Repr

namespace Budgeted

/-- `Budgeted::new(budget, inner)`. -/
def new (budget : AshaBudget) (inner : T) : Budgeted T :=
  { budget := budget, inner := inner }

/-- `Budgeted::get`: a reference to the underlying object. -/
def get (b : Budgeted T) : T := b.inner

end Budgeted

/-- `struct Obs<P, V>` (`src/observation.rs`): observation identifier
(`ObsId(u64)` embedded as `Nat`), parameter and value. -/
structure Obs (P : Type u) (V : Type v) where
  id : Nat
  param : P
  value : V
deriving DecidableEq, Repr

/-- `Obs::map_param` (`src/observation.rs`). -/
def Obs.map_param (o : Obs P V) (f : P → Q) : Obs Q V :=
  { id := o.id, param := f o.param, value := o.value }

/-! ## RungValue (`src/optimizers/asha.rs`, lines 270-284) -/

/-- `struct RungValue<T>`: a value tagged with the rung number it was
observed at. -/
structure RungValue (T : Type u) where
  rung_num : Nat
  value : T
deriving DecidableEq, Repr

/-- `RungValue::cmp`: compares `(Reverse(rung_num), value)` tuples, so a
higher rung number orders strictly lower (better, for minimization). -/
def RungValue.cmp [LinearOrder T] (a b : RungValue T) : Ordering :=
  (compare b.rung_num a.rung_num).then (compare a.value b.value)

/-! ## Association tables

`HashMap<ObsId, _>` embedded as an association list whose iteration
order is deterministic (insertion order); `insert` on an existing key
replaces the value in place, mirroring `HashMap::insert`. -/

namespace Table

/-- `HashMap::get`. -/
def find (id : Nat) : List (Nat × α) → Option α
  | [] => none
  | (k, v) :: rest => if k = id then some v else find id rest

/-- `HashMap::insert`: replace in place if the key is present,
append otherwise. -/
def insert (id : Nat) (v : α) : List (Nat × α) → List (Nat × α)
  | [] => [(id, v)]
  | (k, w) :: rest => if k = id then (k, v) :: rest else (k, w) :: insert id v rest

/-- `HashMap::remove` (dropping the returned value). -/
def erase (id : Nat) : List (Nat × α) → List (Nat × α)
  | [] => []
  | (k, w) :: rest => if k = id then rest else (k, w) :: erase id rest

end Table

/-! ## ASHA (`src/optimizers/asha.rs`) -/

/-- `enum RungEntry<P, V>` (`asha.rs`, lines 237-241): either a
suspended (pending) observation with its budgeted parameter, or a
finished one retained only for its value. -/
inductive RungEntry (P : Type u) (V : Type v) where
  | suspended (param : Budgeted P) (value : V)
  | finished (value : V)
deriving DecidableEq, Repr

/-- `RungEntry::is_suspended`. -/
def RungEntry.is_suspended : RungEntry P V → Bool
  | .suspended _ _ => true
  | .finished _ => false

/-- `RungEntry::value`. -/
def RungEntry.value : RungEntry P V → V
  | .suspended _ v => v
  | .finished v => v

/-- `struct Rung<P, V>` (`asha.rs`, lines 258-261). -/
structure Rung (P : Type u) (V : Type v) where
  observations : List (Nat × RungEntry P V)
deriving DecidableEq, Repr

/-- `struct AshaOptions` (`asha.rs`, lines 11-17).  `r`, `eta` and
`max_suspended` are `NonZeroUsize` in the source; the embedding uses
`Nat` and theorems carry positivity hypotheses where they matter. -/
structure AshaOptions where
  r : Nat
  s : Nat
  eta : Nat
  max_suspended : Nat
deriving DecidableEq, Repr

/-- `AshaOptions::default()` (`asha.rs`, lines 18-27). -/
def AshaOptions.default : AshaOptions :=
  { r := 1, s := 0, eta := 4, max_suspended := 16 }

/-- The inner `Optimizer` consumed by the schedulers, as pure
functions over an abstract state `σ`.  `sample` is the parameter proposal of the strategy with its rng folded into the state; per the
reference implementation (`RandomOptimizer::ask` returns
`Obs::new(idg, param_space.sample(rng))`), the observation id is
minted from the serial id generator by `innerAsk` below. -/
structure InnerOpt (σ : Type w) (P : Type u) (V : Type v) where
  sample : σ → σ × P
  tell : σ → Obs P (RungValue V) → σ

/-- The `ask(rng, idg)` of the inner optimizer: propose a parameter and wrap
it in `Obs::new(idg, param)`, where the id generator is
`SerialIdGenerator` (`generators.rs`: returns `next_id` and
increments it). -/
def innerAsk (io : InnerOpt σ P V) (s : σ) (idg : Nat) : σ × Obs P Unit × Nat :=
  let sp := io.sample s
  (sp.1, { id := idg, param := sp.2, value := () }, idg + 1)

/-- Kernel-computable truncated base-`b` logarithm, by fuel recursion
(`logFloor_eq_log` below validates it against `Nat.log`).  It embeds
the `(n as f64).log(base) as usize` computations of the source, exact
for bases `>= 2` up to f64 rounding at astronomically large
magnitudes. -/
def logFloorAux (b : Nat) : Nat → Nat → Nat
  | 0, _ => 0
  | fuel + 1, n => if 2 ≤ b ∧ b ≤ n then logFloorAux b fuel (n / b) + 1 else 0

/-- Truncated base-`b` logarithm of `n`. -/
def logFloor (b n : Nat) : Nat := logFloorAux b n n

/-- `struct AshaOptimizer<O, V>` (`asha.rs`, lines 29-37); the inner
optimizer keeps its state in `inner : σ` (its behaviour is a separate
`InnerOpt` value passed to `ask`/`tell`). -/
structure AshaOptimizer (σ : Type w) (P : Type u) (V : Type v) where
  inner : σ
  max_budget : Nat
  options : AshaOptions
  rungs : List (Rung P V)
  total_suspended : Nat
deriving DecidableEq, Repr

namespace AshaOptimizer

/-- `AshaOptimizer::with_options` (`asha.rs`, lines 47-56): stores the
arguments verbatim, with empty rungs and a zero suspension counter.
It performs no validation and cannot fail. -/
def withOptions (inner : σ) (max_budget : Nat) (options : AshaOptions) :
    AshaOptimizer σ P V :=
  { inner := inner, max_budget := max_budget, options := options,
    rungs := [], total_suspended := 0 }

/-- `AshaOptimizer::get_rung_num` (`asha.rs`, lines 70-83).  The source
computes `(n as f64).log(eta as f64) as usize`; for `eta ≥ 2` that is
the truncated base-`eta` logarithm, embedded as `logFloor`. -/
def get_rung_num (st : AshaOptimizer σ P V) (c : Nat) : Nat :=
  let n := c / st.options.r
  if n = 0 then 0
  else
    let rung := logFloor st.options.eta n
    if rung ≤ st.options.s then 0 else rung - st.options.s

end AshaOptimizer

/-- The `min_by_key` over the suspended entries of a rung
(`asha.rs`, lines 118-122): the first entry (in iteration order) with
the minimal value, returned with its parameter and value. -/
def bestSuspended [LinearOrder V] :
    List (Nat × RungEntry P V) → Option (Nat × Budgeted P × V)
  | [] => none
  | (id, .suspended p v) :: rest =>
    match bestSuspended rest with
    | none => some (id, p, v)
    | some (id2, p2, v2) => if v ≤ v2 then some (id, p, v) else some (id2, p2, v2)
  | (_, .finished _) :: rest => bestSuspended rest

/-- The `max_by_key` over the suspended entries of a rung
(`asha.rs`, lines 87-91): the last entry (in iteration order) with the
maximal value. -/
def worstSuspended [LinearOrder V] :
    List (Nat × RungEntry P V) → Option (Nat × Budgeted P × V)
  | [] => none
  | (id, .suspended p v) :: rest =>
    match worstSuspended rest with
    | none => some (id, p, v)
    | some (id2, p2, v2) => if v ≤ v2 then some (id2, p2, v2) else some (id, p, v)
  | (_, .finished _) :: rest => worstSuspended rest

/-- The `superiors` count of `AshaOptimizer::ask` (`asha.rs`, lines
124-129): non-suspended entries of the rung whose value is strictly
better (smaller) than the value of the candidate. -/
def superiorsCount [LinearOrder V] (l : List (Nat × RungEntry P V)) (v : V) : Nat :=
  (l.filter fun e => !e.2.is_suspended && decide (e.2.value < v)).length

/-- Promotion attempt of one rung inside `AshaOptimizer::ask`
(`asha.rs`, lines 118-156): take the best suspended entry; if at least
`len / eta` non-suspended entries beat it, give up on this rung
(`continue`); otherwise raise its budget amount to
`min max_budget (r * eta ^ (rung_num + 1 + s))`, mark it `Finished` in
the rung, and return it unevaluated. -/
def rungPromote [LinearOrder V] (opts : AshaOptions) (max_budget : Nat)
    (rung_num : Nat) (rung : Rung P V) :
    Option (Rung P V × Obs (Budgeted P) Unit) :=
  match bestSuspended rung.observations with
  | none => none
  | some (id, param, value) =>
    if rung.observations.length / opts.eta ≤ superiorsCount rung.observations value then
      none
    else
      let new_budget := opts.r * opts.eta ^ (rung_num + 1 + opts.s)
      let param2 : Budgeted P :=
        { param with budget := param.budget.set_amount (min max_budget new_budget) }
      some (⟨Table.insert id (.finished value) rung.observations⟩,
            { id := id, param := param2, value := () })

/-- The rung scan of `AshaOptimizer::ask` (`asha.rs`, lines 113-157):
try rungs from the highest budget down, returning the first promotion
found together with the updated rung list.  The argument `n` starts at
`rungs.length`; index `n - 1` is tried first. -/
def promoteScanAux [LinearOrder V] (opts : AshaOptions) (max_budget : Nat)
    (rungs : List (Rung P V)) : Nat → Option (List (Rung P V) × Obs (Budgeted P) Unit)
  | 0 => none
  | i + 1 =>
    match rungs.get? i with
    | none => promoteScanAux opts max_budget rungs i
    | some rung =>
      match rungPromote opts max_budget i rung with
      | some (rung2, obs) => some (rungs.set i rung2, obs)
      | none => promoteScanAux opts max_budget rungs i

/-- `AshaOptimizer::ask` (`asha.rs`, lines 112-165): promote if some
rung yields a candidate; otherwise delegate to the inner optimizer and
grant a fresh budget of `min max_budget (r * eta ^ s)`. -/
def AshaOptimizer.ask [LinearOrder V] (io : InnerOpt σ P V)
    (st : AshaOptimizer σ P V) (idg : Nat) :
    AshaOptimizer σ P V × Nat × Obs (Budgeted P) Unit :=
  match promoteScanAux st.options st.max_budget st.rungs st.rungs.length with
  | some (rungs2, obs) => ({ st with rungs := rungs2 }, idg, obs)
  | none =>
    let a := innerAsk io st.inner idg
    let amount := st.options.r * st.options.eta ^ st.options.s
    ({ st with inner := a.1 }, a.2.2,
      a.2.1.map_param fun p => Budgeted.new (AshaBudget.new (min st.max_budget amount)) p)

/-- `Rungs::get_mut` (`asha.rs`, lines 226-234), extension part: pad
the rung list with empty rungs up to index `i`. -/
def extendRungs (rungs : List (Rung P V)) (i : Nat) : List (Rung P V) :=
  rungs ++ List.replicate (i + 1 - rungs.length) ⟨[]⟩

/-- `AshaOptimizer::abandone_one` (`asha.rs`, lines 85-101): in the
first (lowest) rung holding any suspended entry, overwrite the
worst-valued suspended entry with `Finished` (keeping its value);
`none` is the `unreachable!()` panic of the source when no rung holds a
suspended entry. -/
def abandoneOne [LinearOrder V] : List (Rung P V) → Option (List (Rung P V))
  | [] => none
  | rung :: rest =>
    match worstSuspended rung.observations with
    | some (id, _p, v) =>
      some (⟨Table.insert id (.finished v) rung.observations⟩ :: rest)
    | none =>
      match abandoneOne rest with
      | some rest2 => some (rung :: rest2)
      | none => none

/-- The `while self.options.max_suspended.get() < self.total_suspended`
loop at the end of `AshaOptimizer::tell` (`asha.rs`, lines 204-207):
abandon one suspended entry and decrement the counter until the counter
is within the bound; `none` propagates the `unreachable!()` panic. -/
def abandonLoop [LinearOrder V] (max_suspended : Nat) :
    Nat → List (Rung P V) → Option (Nat × List (Rung P V))
  | 0, rungs => some (0, rungs)
  | t + 1, rungs =>
    if max_suspended < t + 1 then
      match abandoneOne rungs with
      | some rungs2 => abandonLoop max_suspended t rungs2
      | none => none
    else some (t + 1, rungs)

/-- `AshaOptimizer::tell` (`asha.rs`, lines 167-210).  The target rung
index is derived from the reported consumption; `Rungs::get_mut`
asserts `i < 1000` (panic otherwise) and pads the rung list.  A report
with `consumption >= max_budget` is forwarded to the inner optimizer
with rank `rung_num + 1`; otherwise an existing suspended entry has its
parameter overwritten (value kept), and a new id is inserted as
`Suspended` and forwarded with rank `rung_num`.  Finally the
suspension-bound loop runs. -/
def AshaOptimizer.tell [LinearOrder V] (io : InnerOpt σ P V)
    (st : AshaOptimizer σ P V) (obs : Obs (Budgeted P) V) :
    RunResult (AshaOptimizer σ P V) :=
  let rung_num := st.get_rung_num obs.param.budget.consumption
  if 1000 ≤ rung_num then .panicked
  else
    let rungs := extendRungs st.rungs rung_num
    if st.max_budget ≤ obs.param.budget.consumption then
      let inner2 := io.tell st.inner
        { id := obs.id, param := obs.param.get,
          value := { rung_num := rung_num + 1, value := obs.value } }
      match abandonLoop st.options.max_suspended st.total_suspended rungs with
      | some tr =>
        .ok { st with inner := inner2, rungs := tr.2, total_suspended := tr.1 }
      | none => .panicked
    else
      let rung := rungs.getD rung_num ⟨[]⟩
      match Table.find obs.id rung.observations with
      | some entry =>
        let rung2 : Rung P V :=
          match entry with
          | .suspended _ v => ⟨Table.insert obs.id (.suspended obs.param v) rung.observations⟩
          | .finished _ => rung
        match abandonLoop st.options.max_suspended st.total_suspended
            (rungs.set rung_num rung2) with
        | some tr => .ok { st with rungs := tr.2, total_suspended := tr.1 }
        | none => .panicked
      | none =>
        let rung2 : Rung P V :=
          ⟨Table.insert obs.id (.suspended obs.param obs.value) rung.observations⟩
        let inner2 := io.tell st.inner
          { id := obs.id, param := obs.param.get,
            value := { rung_num := rung_num, value := obs.value } }
        match abandonLoop st.options.max_suspended (st.total_suspended + 1)
            (rungs.set rung_num rung2) with
        | some tr =>
          .ok { st with inner := inner2, rungs := tr.2, total_suspended := tr.1 }
        | none => .panicked

/-! ## Hyperband (`src/optimizers/hyperband.rs`) -/

/-- `struct HyperbandOptions` (`hyperband.rs`, lines 10-15). -/
structure HyperbandOptions where
  r : Nat
  eta : Nat
  max_susp : Nat
deriving DecidableEq, Repr

/-- `HyperbandOptions::default()` (`hyperband.rs`, lines 16-24). -/
def HyperbandOptions.default : HyperbandOptions :=
  { r := 1, eta := 4, max_susp := 4 }

/-- `struct Bracket` (`hyperband.rs`, lines 115-118). -/
structure Bracket (σ : Type w) (P : Type u) (V : Type v) where
  asha : AshaOptimizer σ P V
  consumption : Nat
deriving DecidableEq, Repr

/-- `struct HyperbandOptimizer` (`hyperband.rs`, lines 26-29):
brackets plus the `runnings : HashMap<ObsId, usize>` owner table. -/
structure HyperbandOptimizer (σ : Type w) (P : Type u) (V : Type v) where
  brackets : List (Bracket σ P V)
  runnings : List (Nat × Nat)
deriving DecidableEq, Repr

/-- `HyperbandOptimizer::with_options` (`hyperband.rs`, lines 46-69):
one ASHA bracket per index `0 ..= log_eta(max_budget)`, each created
from the factory (modelled as a function of the creation index) with
`s := i`; the only check is that the bracket list is non-empty.  The
source computes `(max_budget as f64).log(eta as f64) as usize`,
embedded as `logFloor` (exact for `eta ≥ 2`; for `eta = 1` the source
saturates to `usize::MAX` and aborts on allocation, which the
embedding does not model — theorems assume `2 ≤ eta`). -/
def HyperbandOptimizer.withOptions (factory : Nat → σ) (max_budget : Nat)
    (options : HyperbandOptions) : Except ErrorKind (HyperbandOptimizer σ P V) :=
  let max_bracket := logFloor options.eta max_budget
  let brackets := (List.range (max_bracket + 1)).map fun i =>
    Bracket.mk
      (AshaOptimizer.withOptions (factory i) max_budget
        { r := options.r, s := i, eta := options.eta, max_suspended := options.max_susp })
      0
  if brackets.isEmpty then .error .invalidInput
  else .ok { brackets := brackets, runnings := [] }

/-- The `min_by_key` with index of `HyperbandOptimizer::ask`
(`hyperband.rs`, lines 81-87): the first bracket (in iteration order)
with minimal key. -/
def firstMinIdxBy (key : α → Nat) : List α → Option (Nat × α)
  | [] => none
  | x :: xs =>
    match firstMinIdxBy key xs with
    | none => some (0, x)
    | some jy => if key x ≤ key jy.2 then some (0, x) else some (jy.1 + 1, jy.2)

/-- `HyperbandOptimizer::ask` (`hyperband.rs`, lines 80-94): pick the
bracket with minimal consumption (`ErrorKind::Bug` if there is none),
delegate to its ASHA instance, add the `remaining()` of the returned
budget to the consumption of that bracket, and record the bracket as the owner of
the returned id. -/
def HyperbandOptimizer.ask [LinearOrder V] (io : InnerOpt σ P V)
    (st : HyperbandOptimizer σ P V) (idg : Nat) :
    RunResult (HyperbandOptimizer σ P V × Nat × Obs (Budgeted P) Unit) :=
  match firstMinIdxBy Bracket.consumption st.brackets with
  | none => .err .bug
  | some (i, bracket) =>
    let a := bracket.asha.ask io idg
    let obs := a.2.2
    let bracket2 : Bracket σ P V :=
      { asha := a.1, consumption := bracket.consumption + obs.param.budget.remaining }
    .ok ({ brackets := st.brackets.set i bracket2,
           runnings := Table.insert obs.id i st.runnings }, a.2.1, obs)

/-- `HyperbandOptimizer::tell` (`hyperband.rs`, lines 96-108): remove
the owner record (`ErrorKind::UnknownObservation` if absent), correct
the consumption of the bracket by `- remaining() + excess()` (panicking
`u64` subtraction in the source, truncated here), and delegate to the
ASHA instance of the bracket. -/
def HyperbandOptimizer.tell [LinearOrder V] (io : InnerOpt σ P V)
    (st : HyperbandOptimizer σ P V) (obs : Obs (Budgeted P) V) :
    RunResult (HyperbandOptimizer σ P V) :=
  match Table.find obs.id st.runnings with
  | none => .err .unknownObservation
  | some i =>
    match st.brackets.get? i with
    | none => .panicked
    | some bracket =>
      let consumption2 :=
        bracket.consumption - obs.param.budget.remaining + obs.param.budget.excess
      match bracket.asha.tell io obs with
      | .ok asha2 =>
        .ok { brackets := st.brackets.set i ⟨asha2, consumption2⟩,
              runnings := Table.erase obs.id st.runnings }
      | .err e => .err e
      | .panicked => .panicked

/-! ## Helper lemmas -/

theorem Table.find_insert_self (id : Nat) (v : α) (l : List (Nat × α)) :
    Table.find id (Table.insert id v l) = some v := by
  induction l with
  | nil => simp [Table.find, Table.insert]
  | cons hd tl ih =>
    obtain ⟨k, w⟩ := hd
    by_cases hk : k = id
    · simp [Table.find, Table.insert, hk]
    · simp [Table.find, Table.insert, hk, ih]

theorem Table.find_insert_ne (id id2 : Nat) (v : α) (l : List (Nat × α))
    (h : id ≠ id2) : Table.find id (Table.insert id2 v l) = Table.find id l := by
  induction l with
  | nil => simp [Table.find, Table.insert, Ne.symm h]
  | cons hd tl ih =>
    obtain ⟨k, w⟩ := hd
    by_cases hk : k = id2
    · have hki : ¬ k = id := by rw [hk]; exact Ne.symm h
      simp [Table.insert, if_pos hk, Table.find, if_neg hki]
    · simp only [Table.insert, if_neg hk]
      by_cases hki : k = id
      · simp [Table.find, hki]
      · simp [Table.find, hki, ih]

theorem Table.insert_self_of_find (id : Nat) (v : α) (l : List (Nat × α))
    (h : Table.find id l = some v) : Table.insert id v l = l := by
  induction l with
  | nil => simp [Table.find] at h
  | cons hd tl ih =>
    obtain ⟨k, w⟩ := hd
    by_cases hk : k = id
    · simp only [Table.find, if_pos hk] at h
      simp only [Table.insert, if_pos hk]
      injection h with h
      rw [h]
    · simp only [Table.find, if_neg hk] at h
      simp [Table.insert, hk, ih h]

theorem bestSuspended_mem [LinearOrder V] (l : List (Nat × RungEntry P V))
    (id : Nat) (p : Budgeted P) (v : V)
    (h : bestSuspended l = some (id, p, v)) :
    (id, RungEntry.suspended p v) ∈ l := by
  induction l with
  | nil => simp [bestSuspended] at h
  | cons hd tl ih =>
    obtain ⟨k, e⟩ := hd
    cases e with
    | suspended p0 v0 =>
      simp only [bestSuspended] at h
      split at h
      · simp only [Option.some.injEq, Prod.mk.injEq] at h
        obtain ⟨rfl, rfl, rfl⟩ := h
        exact List.mem_cons_self _ _
      · rename_i id2 p2 v2 htl
        split at h
        · simp only [Option.some.injEq, Prod.mk.injEq] at h
          obtain ⟨rfl, rfl, rfl⟩ := h
          exact List.mem_cons_self _ _
        · simp only [Option.some.injEq, Prod.mk.injEq] at h
          obtain ⟨rfl, rfl, rfl⟩ := h
          exact List.mem_cons_of_mem _ (ih htl)
    | finished v0 =>
      simp only [bestSuspended] at h
      exact List.mem_cons_of_mem _ (ih h)

theorem bestSuspended_none [LinearOrder V] (l : List (Nat × RungEntry P V))
    (h : bestSuspended l = none) :
    ∀ e ∈ l, (e : Nat × RungEntry P V).2.is_suspended = false := by
  induction l with
  | nil => intro e he; simp at he
  | cons hd tl ih =>
    obtain ⟨k, e0⟩ := hd
    cases e0 with
    | suspended p0 v0 =>
      exfalso
      simp only [bestSuspended] at h
      split at h
      · exact Option.noConfusion h
      · split at h <;> exact Option.noConfusion h
    | finished v0 =>
      simp only [bestSuspended] at h
      intro e he
      rcases List.mem_cons.mp he with rfl | he2
      · rfl
      · exact ih h e he2

theorem bestSuspended_min [LinearOrder V] (l : List (Nat × RungEntry P V))
    (id : Nat) (p : Budgeted P) (v : V)
    (h : bestSuspended l = some (id, p, v)) :
    ∀ e ∈ l, (e : Nat × RungEntry P V).2.is_suspended = true → v ≤ e.2.value := by
  induction l generalizing id p v with
  | nil => intro e he; simp at he
  | cons hd tl ih =>
    obtain ⟨k, e0⟩ := hd
    cases e0 with
    | suspended p0 v0 =>
      simp only [bestSuspended] at h
      split at h
      · rename_i htl
        simp only [Option.some.injEq, Prod.mk.injEq] at h
        obtain ⟨rfl, rfl, rfl⟩ := h
        intro e he hs
        rcases List.mem_cons.mp he with rfl | he2
        · exact le_refl _
        · exact absurd hs (by simp [bestSuspended_none tl htl e he2])
      · rename_i id2 p2 v2 htl
        split at h
        · rename_i hle
          simp only [Option.some.injEq, Prod.mk.injEq] at h
          obtain ⟨rfl, rfl, rfl⟩ := h
          intro e he hs
          rcases List.mem_cons.mp he with rfl | he2
          · exact le_refl _
          · exact le_trans hle (ih _ _ _ htl e he2 hs)
        · rename_i hle
          simp only [Option.some.injEq, Prod.mk.injEq] at h
          obtain ⟨rfl, rfl, rfl⟩ := h
          intro e he hs
          rcases List.mem_cons.mp he with rfl | he2
          · exact le_of_not_le hle
          · exact ih _ _ _ htl e he2 hs
    | finished v0 =>
      simp only [bestSuspended] at h
      intro e he hs
      rcases List.mem_cons.mp he with rfl | he2
      · exact absurd hs (by simp [RungEntry.is_suspended])
      · exact ih _ _ _ h e he2 hs

theorem worstSuspended_none [LinearOrder V] (l : List (Nat × RungEntry P V))
    (h : worstSuspended l = none) :
    ∀ e ∈ l, (e : Nat × RungEntry P V).2.is_suspended = false := by
  induction l with
  | nil => intro e he; simp at he
  | cons hd tl ih =>
    obtain ⟨k, e0⟩ := hd
    cases e0 with
    | suspended p0 v0 =>
      exfalso
      simp only [worstSuspended] at h
      split at h
      · exact Option.noConfusion h
      · split at h <;> exact Option.noConfusion h
    | finished v0 =>
      simp only [worstSuspended] at h
      intro e he
      rcases List.mem_cons.mp he with rfl | he2
      · rfl
      · exact ih h e he2

theorem worstSuspended_mem [LinearOrder V] (l : List (Nat × RungEntry P V))
    (id : Nat) (p : Budgeted P) (v : V)
    (h : worstSuspended l = some (id, p, v)) :
    (id, RungEntry.suspended p v) ∈ l := by
  induction l with
  | nil => simp [worstSuspended] at h
  | cons hd tl ih =>
    obtain ⟨k, e0⟩ := hd
    cases e0 with
    | suspended p0 v0 =>
      simp only [worstSuspended] at h
      split at h
      · simp only [Option.some.injEq, Prod.mk.injEq] at h
        obtain ⟨rfl, rfl, rfl⟩ := h
        exact List.mem_cons_self _ _
      · rename_i id2 p2 v2 htl
        split at h
        · simp only [Option.some.injEq, Prod.mk.injEq] at h
          obtain ⟨rfl, rfl, rfl⟩ := h
          exact List.mem_cons_of_mem _ (ih htl)
        · simp only [Option.some.injEq, Prod.mk.injEq] at h
          obtain ⟨rfl, rfl, rfl⟩ := h
          exact List.mem_cons_self _ _
    | finished v0 =>
      simp only [worstSuspended] at h
      exact List.mem_cons_of_mem _ (ih h)

theorem worstSuspended_max [LinearOrder V] (l : List (Nat × RungEntry P V))
    (id : Nat) (p : Budgeted P) (v : V)
    (h : worstSuspended l = some (id, p, v)) :
    ∀ e ∈ l, (e : Nat × RungEntry P V).2.is_suspended = true → e.2.value ≤ v := by
  induction l generalizing id p v with
  | nil => intro e he; simp at he
  | cons hd tl ih =>
    obtain ⟨k, e0⟩ := hd
    cases e0 with
    | suspended p0 v0 =>
      simp only [worstSuspended] at h
      split at h
      · rename_i htl
        simp only [Option.some.injEq, Prod.mk.injEq] at h
        obtain ⟨rfl, rfl, rfl⟩ := h
        intro e he hs
        rcases List.mem_cons.mp he with rfl | he2
        · exact le_refl _
        · exact absurd hs (by simp [worstSuspended_none tl htl e he2])
      · rename_i id2 p2 v2 htl
        split at h
        · rename_i hle
          simp only [Option.some.injEq, Prod.mk.injEq] at h
          obtain ⟨rfl, rfl, rfl⟩ := h
          intro e he hs
          rcases List.mem_cons.mp he with rfl | he2
          · exact hle
          · exact ih _ _ _ htl e he2 hs
        · rename_i hle
          simp only [Option.some.injEq, Prod.mk.injEq] at h
          obtain ⟨rfl, rfl, rfl⟩ := h
          intro e he hs
          rcases List.mem_cons.mp he with rfl | he2
          · exact le_refl _
          · exact le_trans (ih _ _ _ htl e he2 hs) (le_of_not_le hle)
    | finished v0 =>
      simp only [worstSuspended] at h
      intro e he hs
      rcases List.mem_cons.mp he with rfl | he2
      · exact absurd hs (by simp [RungEntry.is_suspended])
      · exact ih _ _ _ h e he2 hs

theorem rungPromote_eq [LinearOrder V] (opts : AshaOptions) (maxB rung_num : Nat)
    (rung : Rung P V) (rung2 : Rung P V) (obs : Obs (Budgeted P) Unit)
    (h : rungPromote opts maxB rung_num rung = some (rung2, obs)) :
    ∃ p v, bestSuspended rung.observations = some (obs.id, p, v) ∧
      superiorsCount rung.observations v < rung.observations.length / opts.eta ∧
      rung2 = ⟨Table.insert obs.id (RungEntry.finished v) rung.observations⟩ ∧
      obs = ⟨obs.id, Budgeted.new
          (p.budget.set_amount (min maxB (opts.r * opts.eta ^ (rung_num + 1 + opts.s))))
          p.inner, ()⟩ := by
  unfold rungPromote at h
  split at h
  · exact Option.noConfusion h
  · rename_i id p v hbest
    split at h
    · exact Option.noConfusion h
    · rename_i hcount
      simp only [Option.some.injEq, Prod.mk.injEq] at h
      obtain ⟨h1, h2⟩ := h
      have hid : obs.id = id := by rw [← h2]
      subst hid
      exact ⟨p, v, hbest, lt_of_not_le hcount, h1.symm, h2.symm⟩

theorem promoteScan_shape [LinearOrder V] (opts : AshaOptions) (maxB : Nat)
    (rungs : List (Rung P V)) (n : Nat) (rungs2 : List (Rung P V))
    (obs : Obs (Budgeted P) Unit)
    (h : promoteScanAux opts maxB rungs n = some (rungs2, obs)) :
    ∃ i rung rB, i < n ∧ rungs.get? i = some rung ∧
      rungPromote opts maxB i rung = some (rB, obs) ∧ rungs2 = rungs.set i rB := by
  induction n with
  | zero => simp [promoteScanAux] at h
  | succ i ih =>
    simp only [promoteScanAux] at h
    split at h
    · obtain ⟨j, rung, rB, hj, hgj, hp1, hs⟩ := ih h
      exact ⟨j, rung, rB, Nat.lt_succ_of_lt hj, hgj, hp1, hs⟩
    · rename_i rung hg
      split at h
      · rename_i rung2 obs2 hp
        simp only [Option.some.injEq, Prod.mk.injEq] at h
        obtain ⟨h1, h2⟩ := h
        subst h2
        exact ⟨i, rung, rung2, Nat.lt_succ_self i, hg, hp, h1.symm⟩
      · obtain ⟨j, rung1, rB, hj, hgj, hp1, hs⟩ := ih h
        exact ⟨j, rung1, rB, Nat.lt_succ_of_lt hj, hgj, hp1, hs⟩

theorem abandonLoop_le [LinearOrder V] (m t : Nat) (rungs : List (Rung P V))
    (t2 : Nat) (rungs2 : List (Rung P V))
    (h : abandonLoop m t rungs = some (t2, rungs2)) : t2 ≤ m := by
  induction t generalizing rungs with
  | zero =>
    simp only [abandonLoop, Option.some.injEq, Prod.mk.injEq] at h
    omega
  | succ t ih =>
    simp only [abandonLoop] at h
    split at h
    · split at h
      · rename_i r2 _
        exact ih r2 h
      · exact Option.noConfusion h
    · rename_i hc
      simp only [Option.some.injEq, Prod.mk.injEq] at h
      omega

theorem abandonLoop_of_le [LinearOrder V] (m t : Nat) (rungs : List (Rung P V))
    (h : t ≤ m) : abandonLoop m t rungs = some (t, rungs) := by
  cases t with
  | zero => rfl
  | succ t => simp only [abandonLoop, if_neg (by omega : ¬ m < t + 1)]

theorem abandoneOne_shape [LinearOrder V] (rungs rungs2 : List (Rung P V))
    (h : abandoneOne rungs = some rungs2) :
    ∃ j rung id p v, rungs.get? j = some rung ∧
      (∀ k, ∀ rk : Rung P V, k < j → rungs.get? k = some rk →
        worstSuspended rk.observations = none) ∧
      worstSuspended rung.observations = some (id, p, v) ∧
      rungs2 = rungs.set j ⟨Table.insert id (RungEntry.finished v) rung.observations⟩ := by
  induction rungs generalizing rungs2 with
  | nil => simp [abandoneOne] at h
  | cons rung rest ih =>
    simp only [abandoneOne] at h
    split at h
    · rename_i id p v hw
      simp only [Option.some.injEq] at h
      refine ⟨0, rung, id, p, v, rfl, ?_, hw, ?_⟩
      · intro k rk hk; omega
      · simpa using h.symm
    · rename_i hw
      split at h
      · rename_i rest2 hr
        simp only [Option.some.injEq] at h
        obtain ⟨j, rung1, id, p, v, hg, hpre, hws, hset⟩ := ih rest2 hr
        refine ⟨j + 1, rung1, id, p, v, by simpa using hg, ?_, hws, ?_⟩
        · intro k rk hk hgk
          cases k with
          | zero =>
            simp only [List.get?] at hgk
            injection hgk with hgk
            rw [← hgk]; exact hw
          | succ k2 => exact hpre k2 rk (by omega) (by simpa using hgk)
        · rw [← h, hset]
          rfl
      · exact Option.noConfusion h

/-- Validation of the fuel-based logarithm against `Nat.log`. -/
theorem logFloorAux_eq_log (b : Nat) :
    ∀ fuel n, n ≤ fuel → logFloorAux b fuel n = Nat.log b n := by
  intro fuel
  induction fuel with
  | zero =>
    intro n hn
    have : n = 0 := by omega
    subst this
    simp [logFloorAux, Nat.log_zero_right]
  | succ fuel ih =>
    intro n hn
    simp only [logFloorAux]
    by_cases hb : 2 ≤ b ∧ b ≤ n
    · rw [if_pos hb, ih (n / b) ?_, Nat.log_of_one_lt_of_le (by omega) hb.2]
      have : n / b < n := Nat.div_lt_self (by omega) (by omega)
      omega
    · rw [if_neg hb]
      rcases not_and_or.mp hb with h1 | h2
      · exact (Nat.log_of_left_le_one (by omega) n).symm
      · exact (Nat.log_of_lt (by omega)).symm

/-- Validation of `logFloor` against `Nat.log`. -/
theorem logFloor_eq_log (b n : Nat) : logFloor b n = Nat.log b n :=
  logFloorAux_eq_log b n n (le_refl n)

/-! ## Concrete instances used by witnesses and counterexamples -/

/-- A minimal inner optimizer over parameter `Unit` and value `Nat`:
proposes the unit parameter and counts the reports it receives (as
`RandomOptimizer` with an observable `tell`, so that forwarding to the
inner optimizer shows up in the state). -/
def demoInner : InnerOpt Nat Unit Nat :=
  { sample := fun s => (s, ()), tell := fun s _ => s + 1 }

/-- A rung holding two suspended observations, id 0 at value 1 (better)
and id 1 at value 2. -/
def demoRung : Rung Unit Nat :=
  ⟨[(0, .suspended ⟨⟨1, 1⟩, ()⟩ 1), (1, .suspended ⟨⟨1, 1⟩, ()⟩ 2)]⟩

/-- An ASHA state (max budget 2, `r = 1`, `s = 0`, `eta = 2`) whose rung
0 is `demoRung`; reachable by two ask/tell rounds from scratch. -/
def demoSt : AshaOptimizer Nat Unit Nat :=
  ⟨0, 2, ⟨1, 0, 2, 16⟩, [demoRung], 2⟩

/-- A two-bracket Hyperband state (max budget 2, `eta = 2`), both
brackets untouched; produced by `withOptions` with a zero-state
factory. -/
def demoHb : HyperbandOptimizer Nat Unit Nat :=
  ⟨[⟨⟨0, 2, ⟨1, 0, 2, 4⟩, [], 0⟩, 0⟩, ⟨⟨0, 2, ⟨1, 1, 2, 4⟩, [], 0⟩, 0⟩], []⟩

/-- The state of `demoHb` after one ask: bracket 0 reserved one unit
of consumption and owns id 0. -/
def demoHbAsked : HyperbandOptimizer Nat Unit Nat :=
  ⟨[⟨⟨0, 2, ⟨1, 0, 2, 4⟩, [], 0⟩, 1⟩, ⟨⟨0, 2, ⟨1, 1, 2, 4⟩, [], 0⟩, 0⟩], [(0, 0)]⟩

/-! ## Budget claims -/

/-- C9: every `Budget` operation preserves
`consumption ≤ hard_limit ∧ soft_limit ≤ hard_limit`; a violating
mutation is rejected with `InvalidInput` (the source returns early
without mutating, so the budget is unchanged), and under the invariant
the unchecked subtraction in `hard_remaining` is exact (never
underflows). -/
theorem budget_invariant_preserved :
    (∀ n, (Budget.new n).consumption ≤ (Budget.new n).hard_limit ∧
      (Budget.new n).soft_limit ≤ (Budget.new n).hard_limit) ∧
    (∀ (b : Budget) (n : Nat),
      b.consumption ≤ b.hard_limit → b.soft_limit ≤ b.hard_limit →
      (∀ b2, b.set_hard_limit n = Except.ok b2 →
        b2.consumption ≤ b2.hard_limit ∧ b2.soft_limit ≤ b2.hard_limit) ∧
      (∀ e, b.set_hard_limit n = Except.error e → e = ErrorKind.invalidInput) ∧
      (∀ b2, b.set_soft_limit n = Except.ok b2 →
        b2.consumption ≤ b2.hard_limit ∧ b2.soft_limit ≤ b2.hard_limit) ∧
      (∀ e, b.set_soft_limit n = Except.error e → e = ErrorKind.invalidInput) ∧
      (∀ b2, b.consume n = Except.ok b2 →
        b2.consumption ≤ b2.hard_limit ∧ b2.soft_limit ≤ b2.hard_limit) ∧
      (∀ e, b.consume n = Except.error e → e = ErrorKind.invalidInput) ∧
      (∀ b2, b.set_consumption n = Except.ok b2 →
        b2.consumption ≤ b2.hard_limit ∧ b2.soft_limit ≤ b2.hard_limit) ∧
      (∀ e, b.set_consumption n = Except.error e → e = ErrorKind.invalidInput)) ∧
    (∀ b : Budget, b.consumption ≤ b.hard_limit →
      b.hard_remaining + b.consumption = b.hard_limit) := by
  refine ⟨fun n => ⟨Nat.zero_le _, le_refl _⟩, fun b n hc hs => ?_, fun b hc => ?_⟩
  · refine ⟨fun b2 h2 => ?_, fun e h2 => ?_, fun b2 h2 => ?_, fun e h2 => ?_,
      fun b2 h2 => ?_, fun e h2 => ?_, fun b2 h2 => ?_, fun e h2 => ?_⟩
    · simp only [Budget.set_hard_limit] at h2
      split at h2
      · split at h2
        · injection h2 with h2
          rw [← h2]
          constructor <;> simp <;> omega
        · exact Except.noConfusion h2
      · exact Except.noConfusion h2
    · simp only [Budget.set_hard_limit] at h2
      split at h2
      · split at h2
        · exact Except.noConfusion h2
        · injection h2 with h2; rw [← h2]
      · injection h2 with h2; rw [← h2]
    · simp only [Budget.set_soft_limit] at h2
      split at h2
      · injection h2 with h2
        rw [← h2]
        constructor <;> simp <;> omega
      · exact Except.noConfusion h2
    · simp only [Budget.set_soft_limit] at h2
      split at h2
      · exact Except.noConfusion h2
      · injection h2 with h2; rw [← h2]
    · simp only [Budget.consume] at h2
      split at h2
      · injection h2 with h2
        rw [← h2]
        constructor <;> simp <;> omega
      · exact Except.noConfusion h2
    · simp only [Budget.consume] at h2
      split at h2
      · exact Except.noConfusion h2
      · injection h2 with h2; rw [← h2]
    · simp only [Budget.set_consumption] at h2
      split at h2
      · split at h2
        · injection h2 with h2
          rw [← h2]
          constructor <;> simp <;> omega
        · exact Except.noConfusion h2
      · exact Except.noConfusion h2
    · simp only [Budget.set_consumption] at h2
      split at h2
      · split at h2
        · exact Except.noConfusion h2
        · injection h2 with h2; rw [← h2]
      · injection h2 with h2; rw [← h2]
  · unfold Budget.hard_remaining
    omega

/-- Witness for C9 at concrete budgets: the invariant of a fresh
budget, preservation through a concrete `consume`, and exactness of
`hard_remaining` at a concrete budget. -/
theorem budget_invariant_preserved_witness :
    ((Budget.new 7).consumption ≤ (Budget.new 7).hard_limit ∧
      (Budget.new 7).soft_limit ≤ (Budget.new 7).hard_limit) ∧
    (∀ b2, Budget.consume ⟨1, 2, 4⟩ 2 = Except.ok b2 →
      b2.consumption ≤ b2.hard_limit ∧ b2.soft_limit ≤ b2.hard_limit) ∧
    Budget.hard_remaining ⟨1, 2, 4⟩ + 1 = 4 :=
  ⟨budget_invariant_preserved.1 7,
   (budget_invariant_preserved.2.1 ⟨1, 2, 4⟩ 2 (by decide) (by decide)).2.2.2.2.1,
   budget_invariant_preserved.2.2 ⟨1, 2, 4⟩ (by decide)⟩

/-- C5 counterexample: `Budget::consume` is not unconditional — at
`Budget::new(5)` a consumption of 6 is rejected with `InvalidInput`
instead of being stored. -/
theorem budget_consume_errors_cex :
    Budget.consume (Budget.new 5) 6 = Except.error ErrorKind.invalidInput := rfl

/-- C5 (amended): `consume(n)` adds `n` to the stored consumption
exactly when `consumption + n ≤ hard_limit`, and otherwise returns
`InvalidInput` (the source returns early, leaving the budget
unchanged); consumption exceeding the soft limit is reachable and
retained as a valid state, but consumption can never exceed the hard
limit. -/
theorem budget_consume_amended :
    (∀ (b : Budget) (n : Nat),
      (b.consumption + n ≤ b.hard_limit →
        b.consume n = Except.ok ⟨b.consumption + n, b.soft_limit, b.hard_limit⟩) ∧
      (b.hard_limit < b.consumption + n →
        b.consume n = Except.error ErrorKind.invalidInput)) ∧
    (Budget.set_soft_limit (Budget.new 10) 5 = Except.ok ⟨0, 5, 10⟩ ∧
     Budget.consume ⟨0, 5, 10⟩ 7 = Except.ok ⟨7, 5, 10⟩ ∧ 5 < 7) := by
  refine ⟨fun b n => ⟨fun h => ?_, fun h => ?_⟩, rfl, rfl, by omega⟩
  · unfold Budget.consume
    rw [if_pos h]
  · unfold Budget.consume
    rw [if_neg (by omega)]

/-- Witness for C5 (amended) at a concrete budget: a consume within
the hard limit succeeds and adds, one beyond it is rejected. -/
theorem budget_consume_amended_witness :
    Budget.consume ⟨2, 5, 5⟩ 3 = Except.ok ⟨5, 5, 5⟩ ∧
    Budget.consume ⟨2, 5, 5⟩ 4 = Except.error ErrorKind.invalidInput :=
  ⟨(budget_consume_amended.1 ⟨2, 5, 5⟩ 3).1 (by decide),
   (budget_consume_amended.1 ⟨2, 5, 5⟩ 4).2 (by decide)⟩

/-! ## Construction claims -/

/-- C8 counterexample: construction performs no parameter validation.
An ASHA optimizer with reduction factor `eta = 1` is constructed
without any error (the constructor is infallible), and a Hyperband
optimizer whose maximum budget is 0 (below the implied minimum initial
budget `r * eta ^ s = 1`) is constructed successfully as well — no
`InvalidInput` is surfaced. -/
theorem construction_accepts_bad_params_cex :
    (AshaOptimizer.withOptions 0 64 ⟨1, 0, 1, 16⟩ : AshaOptimizer Nat Unit Nat)
        = ⟨0, 64, ⟨1, 0, 1, 16⟩, [], 0⟩ ∧
    (HyperbandOptimizer.withOptions (fun _ => 0) 0 ⟨1, 4, 4⟩
        : Except ErrorKind (HyperbandOptimizer Nat Unit Nat))
        = Except.ok ⟨[⟨⟨0, 0, ⟨1, 0, 4, 4⟩, [], 0⟩, 0⟩], []⟩ := by
  exact ⟨rfl, rfl⟩

/-- C8 (amended): the constructors never validate their parameters:
`AshaOptimizer::with_options` is infallible and stores its arguments
verbatim for any options (including `eta = 1` and a maximum budget
below the implied minimum), and `HyperbandOptimizer::with_options`
returns `Ok` for every reduction factor `eta ≥ 2` — its only
`InvalidInput` assertion (an empty bracket list) can never fire.
(For `eta = 1` the source aborts on an absurd allocation rather than
returning an error.) -/
theorem construction_never_validates (inner : σ) (factory : Nat → σ)
    (max_budget : Nat) (aopts : AshaOptions) (options : HyperbandOptions)
    (_heta : 2 ≤ options.eta) :
    AshaOptimizer.withOptions inner max_budget aopts
        = (⟨inner, max_budget, aopts, [], 0⟩ : AshaOptimizer σ P V) ∧
    ∃ hb : HyperbandOptimizer σ P V,
      HyperbandOptimizer.withOptions factory max_budget options = Except.ok hb := by
  refine ⟨rfl, ?_⟩
  unfold HyperbandOptimizer.withOptions
  rw [if_neg ?_]
  · exact ⟨_, rfl⟩
  · simp

/-- Witness for C8 (amended) at concrete parameters. -/
theorem construction_never_validates_witness :
    (AshaOptimizer.withOptions 3 64 ⟨2, 1, 3, 8⟩ : AshaOptimizer Nat Unit Nat)
        = ⟨3, 64, ⟨2, 1, 3, 8⟩, [], 0⟩ ∧
    ∃ hb : HyperbandOptimizer Nat Unit Nat,
      HyperbandOptimizer.withOptions (fun _ => 3) 64 ⟨2, 4, 8⟩ = Except.ok hb :=
  construction_never_validates 3 (fun _ => 3) 64 ⟨2, 1, 3, 8⟩ ⟨2, 4, 8⟩ (by decide)

/-! ## ASHA tell: terminal reports (C2) -/

/-- C2: a tell whose budget consumption has reached `max_budget` is
forwarded to the inner optimizer with rank `rung_num + 1` (where
`rung_num` is derived from the consumption by `get_rung_num`), and the
`RungValue` order ranks `rung_num + 1` strictly better (lower) than
`rung_num` regardless of the attached values, so a terminal report
always outranks a merely-promoted unfinished observation at the same
nominal rung. -/
theorem asha_terminal_tell_ranks_better [LinearOrder V] (io : InnerOpt σ P V)
    (st st2 : AshaOptimizer σ P V) (obs : Obs (Budgeted P) V)
    (hterm : st.max_budget ≤ obs.param.budget.consumption)
    (h : AshaOptimizer.tell io st obs = RunResult.ok st2) :
    st2.inner = io.tell st.inner
      ⟨obs.id, obs.param.get,
        ⟨st.get_rung_num obs.param.budget.consumption + 1, obs.value⟩⟩ ∧
    (∀ (n : Nat) (v vp : V),
      RungValue.cmp ⟨n + 1, v⟩ ⟨n, vp⟩ = Ordering.lt) := by
  constructor
  · simp only [AshaOptimizer.tell] at h
    split at h
    · exact RunResult.noConfusion h
    · split at h
      · injection h with h
        rw [← h]
      · exact RunResult.noConfusion h
  · intro n v vp
    unfold RungValue.cmp
    have hcmp : compare n (n + 1) = Ordering.lt := by
      rw [Nat.compare_eq_lt]; omega
    rw [hcmp]
    rfl

/-- Witness for C2: a concrete terminal report (consumption 2 at
maximum budget 2) lands in the inner optimizer with rank
`get_rung_num 2 + 1 = 2`. -/
theorem asha_terminal_tell_ranks_better_witness :
    (⟨6, 2, ⟨1, 0, 2, 16⟩, [⟨[]⟩, ⟨[]⟩], 0⟩ : AshaOptimizer Nat Unit Nat).inner
        = demoInner.tell 5 ⟨7, (), ⟨2, 9⟩⟩ ∧
    (∀ (n : Nat) (v vp : Nat),
      RungValue.cmp ⟨n + 1, v⟩ ⟨n, vp⟩ = Ordering.lt) := by
  have h := asha_terminal_tell_ranks_better demoInner
    ⟨5, 2, ⟨1, 0, 2, 16⟩, [], 0⟩ ⟨6, 2, ⟨1, 0, 2, 16⟩, [⟨[]⟩, ⟨[]⟩], 0⟩
    ⟨7, ⟨⟨2, 2⟩, ()⟩, 9⟩ (by decide) (by decide)
  exact h

/-! ## ASHA ask: promotion fairness (C1) -/

/-- C1: when the rung scan of `AshaOptimizer::ask` promotes a
candidate, that candidate is a suspended (pending) entry of its rung
with the best (minimal) value among all suspended entries there, and
the number of entries of the rung with a strictly better value is
below `⌊len / eta⌋` — i.e. sorted best first, the candidate sits within
the top `⌊len / eta⌋` positions.  In particular `⌊len / eta⌋ ≥ 1`
whenever a promotion is reported, so a rung reports at most
`⌊len / eta⌋` promotable candidates at any single point in time (the
scan reports at most one per ask, and none when `⌊len / eta⌋ = 0`). -/
theorem asha_ask_promotion_fairness [LinearOrder V] (io : InnerOpt σ P V)
    (st : AshaOptimizer σ P V) (idg : Nat) (rungs2 : List (Rung P V))
    (obs : Obs (Budgeted P) Unit)
    (h : promoteScanAux st.options st.max_budget st.rungs st.rungs.length
        = some (rungs2, obs)) :
    AshaOptimizer.ask io st idg = ({ st with rungs := rungs2 }, idg, obs) ∧
    ∃ i rung, i < st.rungs.length ∧ st.rungs.get? i = some rung ∧
      ∃ p v, (obs.id, RungEntry.suspended p v) ∈ rung.observations ∧
        (∀ e ∈ rung.observations,
          (e : Nat × RungEntry P V).2.is_suspended = true → v ≤ e.2.value) ∧
        (rung.observations.filter fun e => decide (e.2.value < v)).length
            < rung.observations.length / st.options.eta ∧
        1 ≤ rung.observations.length / st.options.eta := by
  constructor
  · unfold AshaOptimizer.ask
    rw [h]
  · obtain ⟨i, rung, rB, hi, hg, hp, hset⟩ :=
      promoteScan_shape st.options st.max_budget st.rungs st.rungs.length
        rungs2 obs h
    obtain ⟨p, v, hbest, hcount, hrB, hobs⟩ :=
      rungPromote_eq st.options st.max_budget i rung rB obs hp
    refine ⟨i, rung, hi, hg, p, v, bestSuspended_mem _ _ _ _ hbest,
      bestSuspended_min _ _ _ _ hbest, ?_, ?_⟩
    · have hfil : rung.observations.filter (fun e => decide (e.2.value < v))
          = rung.observations.filter
            (fun e => !e.2.is_suspended && decide (e.2.value < v)) := by
        refine List.filter_congr ?_
        intro e he
        by_cases hs : e.2.is_suspended = true
        · have hge : v ≤ e.2.value := bestSuspended_min _ _ _ _ hbest e he hs
          simp [hs, not_lt.mpr hge]
        · simp [Bool.not_eq_true] at hs
          simp [hs]
      rw [hfil]
      exact hcount
    · omega

/-- Witness for C1: promoting from `demoRung` (two suspended entries,
`eta = 2`) returns id 0, the best-valued pending entry, with zero
strictly-better entries against a threshold of `⌊2 / 2⌋ = 1`. -/
theorem asha_ask_promotion_fairness_witness :
    AshaOptimizer.ask demoInner demoSt 5
        = (⟨0, 2, ⟨1, 0, 2, 16⟩,
            [⟨[(0, .finished 1), (1, .suspended ⟨⟨1, 1⟩, ()⟩ 2)]⟩], 2⟩, 5,
           ⟨0, ⟨⟨2, 1⟩, ()⟩, ()⟩) ∧
    ∃ i rung, i < demoSt.rungs.length ∧ demoSt.rungs.get? i = some rung ∧
      ∃ p v, ((0 : Nat), RungEntry.suspended p v) ∈ rung.observations ∧
        (∀ e ∈ rung.observations,
          (e : Nat × RungEntry Unit Nat).2.is_suspended = true → v ≤ e.2.value) ∧
        (rung.observations.filter fun e => decide (e.2.value < v)).length
            < rung.observations.length / demoSt.options.eta ∧
        1 ≤ rung.observations.length / demoSt.options.eta := by
  have h := asha_ask_promotion_fairness demoInner demoSt 5
    [⟨[(0, .finished 1), (1, .suspended ⟨⟨1, 1⟩, ()⟩ 2)]⟩]
    ⟨0, ⟨⟨2, 1⟩, ()⟩, ()⟩ (by decide)
  exact h

/-! ## Hyperband claims -/

theorem firstMinIdxBy_get (key : α → Nat) (l : List α) (i : Nat) (x : α)
    (h : firstMinIdxBy key l = some (i, x)) : l.get? i = some x := by
  induction l generalizing i x with
  | nil => simp [firstMinIdxBy] at h
  | cons hd tl ih =>
    simp only [firstMinIdxBy] at h
    split at h
    · simp only [Option.some.injEq, Prod.mk.injEq] at h
      obtain ⟨rfl, rfl⟩ := h
      rfl
    · rename_i jy htl
      split at h
      · simp only [Option.some.injEq, Prod.mk.injEq] at h
        obtain ⟨rfl, rfl⟩ := h
        rfl
      · simp only [Option.some.injEq, Prod.mk.injEq] at h
        obtain ⟨rfl, rfl⟩ := h
        simpa using ih jy.1 jy.2 htl

theorem firstMinIdxBy_none (key : α → Nat) (l : List α)
    (h : firstMinIdxBy key l = none) : l = [] := by
  cases l with
  | nil => rfl
  | cons hd tl =>
    exfalso
    simp only [firstMinIdxBy] at h
    split at h
    · exact Option.noConfusion h
    · split at h <;> exact Option.noConfusion h

theorem firstMinIdxBy_min (key : α → Nat) (l : List α) (i : Nat) (x : α)
    (h : firstMinIdxBy key l = some (i, x)) : ∀ y ∈ l, key x ≤ key y := by
  induction l generalizing i x with
  | nil => simp [firstMinIdxBy] at h
  | cons hd tl ih =>
    simp only [firstMinIdxBy] at h
    split at h
    · rename_i htl
      simp only [Option.some.injEq, Prod.mk.injEq] at h
      obtain ⟨rfl, rfl⟩ := h
      intro y hy
      rcases List.mem_cons.mp hy with rfl | hy2
      · exact le_refl _
      · rw [firstMinIdxBy_none key tl htl] at hy2
        simp at hy2
    · rename_i jy htl
      split at h
      · rename_i hle
        simp only [Option.some.injEq, Prod.mk.injEq] at h
        obtain ⟨rfl, rfl⟩ := h
        intro y hy
        rcases List.mem_cons.mp hy with rfl | hy2
        · exact le_refl _
        · exact le_trans hle (ih jy.1 jy.2 htl y hy2)
      · rename_i hle
        simp only [Option.some.injEq, Prod.mk.injEq] at h
        obtain ⟨rfl, rfl⟩ := h
        intro y hy
        rcases List.mem_cons.mp hy with rfl | hy2
        · exact le_of_not_le hle
        · exact ih jy.1 jy.2 htl y hy2

/-- C3: a successful Hyperband ask picks a bracket whose tracked
consumption is minimal among all brackets, delegates the ask to the
ASHA instance of that bracket, adds the `remaining()` of the returned
budget to the consumption counter of that bracket, and records that
bracket as the owner of the returned observation id. -/
theorem hyperband_ask_selects_min_bracket [LinearOrder V] (io : InnerOpt σ P V)
    (st : HyperbandOptimizer σ P V) (idg : Nat)
    (st2 : HyperbandOptimizer σ P V) (idg2 : Nat) (obs : Obs (Budgeted P) Unit)
    (h : HyperbandOptimizer.ask io st idg = RunResult.ok (st2, idg2, obs)) :
    ∃ i bracket, st.brackets.get? i = some bracket ∧
      (∀ b ∈ st.brackets, Bracket.consumption bracket ≤ Bracket.consumption b) ∧
      obs = (bracket.asha.ask io idg).2.2 ∧
      idg2 = (bracket.asha.ask io idg).2.1 ∧
      st2.brackets = st.brackets.set i
        ⟨(bracket.asha.ask io idg).1,
         bracket.consumption + obs.param.budget.remaining⟩ ∧
      st2.runnings = Table.insert obs.id i st.runnings := by
  simp only [HyperbandOptimizer.ask] at h
  split at h
  · exact RunResult.noConfusion h
  · rename_i i2 bracket2 hmin
    injection h with h
    simp only [Prod.mk.injEq] at h
    obtain ⟨h1, h2, h3⟩ := h
    refine ⟨i2, bracket2, firstMinIdxBy_get _ _ _ _ hmin,
      fun b hb => firstMinIdxBy_min _ _ _ _ hmin b hb,
      h3.symm, h2.symm, ?_, ?_⟩
    · rw [← h3, ← h1]
    · rw [← h3, ← h1]

/-- Witness for C3: a two-bracket Hyperband state with equal (zero)
consumption asks bracket 0, reserves its remaining budget of 1 and
records id 0 as owned by bracket 0. -/
theorem hyperband_ask_selects_min_bracket_witness :
    ∃ i bracket,
      (demoHb.brackets.get? i = some bracket) ∧
      (∀ b ∈ demoHb.brackets,
        Bracket.consumption bracket ≤ Bracket.consumption b) ∧
      (⟨0, ⟨⟨1, 0⟩, ()⟩, ()⟩ : Obs (Budgeted Unit) Unit)
          = (bracket.asha.ask demoInner 0).2.2 ∧
      (1 : Nat) = (bracket.asha.ask demoInner 0).2.1 ∧
      (demoHbAsked.brackets = demoHb.brackets.set i
        ⟨(bracket.asha.ask demoInner 0).1,
         bracket.consumption
           + (Obs.param (⟨0, ⟨⟨1, 0⟩, ()⟩, ()⟩ : Obs (Budgeted Unit) Unit)).budget.remaining⟩) ∧
      demoHbAsked.runnings = Table.insert 0 i demoHb.runnings :=
  hyperband_ask_selects_min_bracket demoInner demoHb 0 demoHbAsked 1
    ⟨0, ⟨⟨1, 0⟩, ()⟩, ()⟩ (by decide)

/-- C4: Hyperband tell with an unknown id fails with
`UnknownObservation` (the source returns before touching any bracket,
so no bracket state changes); with a known id it removes the owner
record, corrects the consumption of the owning bracket by subtracting
the reported `remaining()` and adding the reported `excess()` (the
subtraction is exact under the no-underflow hypothesis), and delegates
the tell to the ASHA instance of that same bracket. -/
theorem hyperband_tell_dispatch [LinearOrder V] (io : InnerOpt σ P V)
    (st : HyperbandOptimizer σ P V) (obs : Obs (Budgeted P) V) :
    (Table.find obs.id st.runnings = none →
      HyperbandOptimizer.tell io st obs
        = RunResult.err ErrorKind.unknownObservation) ∧
    (∀ i bracket asha2,
      Table.find obs.id st.runnings = some i →
      st.brackets.get? i = some bracket →
      obs.param.budget.remaining ≤ bracket.consumption →
      AshaOptimizer.tell io bracket.asha obs = RunResult.ok asha2 →
      HyperbandOptimizer.tell io st obs = RunResult.ok
        ⟨st.brackets.set i
          ⟨asha2, bracket.consumption - obs.param.budget.remaining
            + obs.param.budget.excess⟩,
         Table.erase obs.id st.runnings⟩ ∧
      (bracket.consumption - obs.param.budget.remaining)
          + obs.param.budget.remaining = bracket.consumption) := by
  constructor
  · intro hfind
    simp only [HyperbandOptimizer.tell, hfind]
  · intro i bracket asha2 hfind hget hrem hasha
    constructor
    · simp only [HyperbandOptimizer.tell, hfind, hget, hasha]
    · omega

/-- Witness for C4: the unknown-id branch on an empty owner table and
the known-id branch on a one-bracket state owning id 0. -/
theorem hyperband_tell_dispatch_witness :
    HyperbandOptimizer.tell demoInner
        (⟨[], []⟩ : HyperbandOptimizer Nat Unit Nat) ⟨0, ⟨⟨1, 1⟩, ()⟩, 5⟩
      = RunResult.err ErrorKind.unknownObservation ∧
    (HyperbandOptimizer.tell demoInner demoHbAsked ⟨0, ⟨⟨1, 1⟩, ()⟩, 5⟩
        = RunResult.ok
          ⟨demoHbAsked.brackets.set 0
            ⟨⟨1, 2, ⟨1, 0, 2, 4⟩, [⟨[(0, .suspended ⟨⟨1, 1⟩, ()⟩ 5)]⟩], 1⟩,
             1 - (0 : Nat) + 0⟩,
           Table.erase 0 demoHbAsked.runnings⟩ ∧
      ((1 : Nat) - (0 : Nat)) + 0 = 1) :=
  ⟨(hyperband_tell_dispatch demoInner ⟨[], []⟩ ⟨0, ⟨⟨1, 1⟩, ()⟩, 5⟩).1 (by decide),
   (hyperband_tell_dispatch demoInner demoHbAsked ⟨0, ⟨⟨1, 1⟩, ()⟩, 5⟩).2
     0 ⟨⟨0, 2, ⟨1, 0, 2, 4⟩, [], 0⟩, 1⟩
     ⟨1, 2, ⟨1, 0, 2, 4⟩, [⟨[(0, .suspended ⟨⟨1, 1⟩, ()⟩ 5)]⟩], 1⟩
     (by decide) (by decide) (by decide) (by decide)⟩

/-! ## ASHA suspension bound (C10) -/

/-- C10: a successful ASHA tell always ends with the suspension
counter within `max_suspended` (the trailing loop abandons entries
until the bound holds, silently — no error reaches the caller), and
each abandonment step converts to `Finished` the worst-valued
(maximal) suspended entry of the first rung, scanning rungs from
lowest to highest, that still holds a suspended entry — permanently
removing it from promotion eligibility while keeping its value. -/
theorem asha_tell_bounds_suspended [LinearOrder V] (io : InnerOpt σ P V)
    (st st2 : AshaOptimizer σ P V) (obs : Obs (Budgeted P) V)
    (rungs rungs2 : List (Rung P V))
    (h : AshaOptimizer.tell io st obs = RunResult.ok st2)
    (h2 : abandoneOne rungs = some rungs2) :
    st2.total_suspended ≤ st.options.max_suspended ∧
    ∃ j rung id p v, rungs.get? j = some rung ∧
      (∀ k, ∀ rk : Rung P V, k < j → rungs.get? k = some rk →
        ∀ e ∈ rk.observations,
          (e : Nat × RungEntry P V).2.is_suspended = false) ∧
      (id, RungEntry.suspended p v) ∈ rung.observations ∧
      (∀ e ∈ rung.observations,
        (e : Nat × RungEntry P V).2.is_suspended = true → e.2.value ≤ v) ∧
      rungs2 = rungs.set j
        ⟨Table.insert id (RungEntry.finished v) rung.observations⟩ := by
  constructor
  · simp only [AshaOptimizer.tell] at h
    repeat' split at h
    all_goals
      first
      | exact RunResult.noConfusion h
      | (rename_i tr htr
         injection h with h
         rw [← h]
         exact abandonLoop_le _ _ _ _ _ htr)
  · obtain ⟨j, rung, id, p, v, hg, hpre, hws, hset⟩ :=
      abandoneOne_shape rungs rungs2 h2
    exact ⟨j, rung, id, p, v, hg,
      fun k rk hk hgk => worstSuspended_none _ (hpre k rk hk hgk),
      worstSuspended_mem _ _ _ _ hws, worstSuspended_max _ _ _ _ hws, hset⟩

/-- Witness for C10: a concrete tell (bound `max_suspended = 1`) ends
with counter 1, and a concrete abandonment converts the worst of two
suspended entries (id 1, value 2) to `Finished`. -/
theorem asha_tell_bounds_suspended_witness :
    (⟨1, 100, ⟨1, 0, 2, 1⟩, [⟨[(0, .suspended ⟨⟨1, 1⟩, ()⟩ 1)]⟩], 1⟩
        : AshaOptimizer Nat Unit Nat).total_suspended ≤ 1 ∧
    ∃ j rung id p v,
      [demoRung].get? j = some rung ∧
      (∀ k, ∀ rk : Rung Unit Nat, k < j → [demoRung].get? k = some rk →
        ∀ e ∈ rk.observations,
          (e : Nat × RungEntry Unit Nat).2.is_suspended = false) ∧
      (id, RungEntry.suspended p v) ∈ rung.observations ∧
      (∀ e ∈ rung.observations,
        (e : Nat × RungEntry Unit Nat).2.is_suspended = true → e.2.value ≤ v) ∧
      [⟨[(0, .suspended ⟨⟨1, 1⟩, ()⟩ 1), (1, .finished 2)]⟩]
        = [demoRung].set j
            ⟨Table.insert id (RungEntry.finished v) rung.observations⟩ :=
  asha_tell_bounds_suspended demoInner
    ⟨0, 100, ⟨1, 0, 2, 1⟩, [], 0⟩
    ⟨1, 100, ⟨1, 0, 2, 1⟩, [⟨[(0, .suspended ⟨⟨1, 1⟩, ()⟩ 1)]⟩], 1⟩
    ⟨0, ⟨⟨1, 1⟩, ()⟩, 1⟩ [demoRung]
    [⟨[(0, .suspended ⟨⟨1, 1⟩, ()⟩ 1), (1, .finished 2)]⟩]
    (by decide) (by decide)

/-! ## Identifier provenance across asks (C7) -/

/-- C7 counterexample: a concrete five-step run (ask, tell, ask, tell,
ask) in which the third ask promotes the observation created by the
first ask and returns the same identifier 0 — two ask calls on one
scheduler instance hand out the same id. -/
theorem asha_ask_repeats_id_cex :
    AshaOptimizer.ask demoInner (AshaOptimizer.withOptions 0 2 ⟨1, 0, 2, 16⟩) 0
      = (⟨0, 2, ⟨1, 0, 2, 16⟩, [], 0⟩, 1, ⟨0, ⟨⟨1, 0⟩, ()⟩, ()⟩) ∧
    AshaOptimizer.tell demoInner ⟨0, 2, ⟨1, 0, 2, 16⟩, [], 0⟩
        ⟨0, ⟨⟨1, 1⟩, ()⟩, 1⟩
      = RunResult.ok
          ⟨1, 2, ⟨1, 0, 2, 16⟩, [⟨[(0, .suspended ⟨⟨1, 1⟩, ()⟩ 1)]⟩], 1⟩ ∧
    AshaOptimizer.ask demoInner
        ⟨1, 2, ⟨1, 0, 2, 16⟩, [⟨[(0, .suspended ⟨⟨1, 1⟩, ()⟩ 1)]⟩], 1⟩ 1
      = (⟨1, 2, ⟨1, 0, 2, 16⟩, [⟨[(0, .suspended ⟨⟨1, 1⟩, ()⟩ 1)]⟩], 1⟩, 2,
         ⟨1, ⟨⟨1, 0⟩, ()⟩, ()⟩) ∧
    AshaOptimizer.tell demoInner
        ⟨1, 2, ⟨1, 0, 2, 16⟩, [⟨[(0, .suspended ⟨⟨1, 1⟩, ()⟩ 1)]⟩], 1⟩
        ⟨1, ⟨⟨1, 1⟩, ()⟩, 2⟩
      = RunResult.ok
          ⟨2, 2, ⟨1, 0, 2, 16⟩,
           [⟨[(0, .suspended ⟨⟨1, 1⟩, ()⟩ 1),
              (1, .suspended ⟨⟨1, 1⟩, ()⟩ 2)]⟩], 2⟩ ∧
    (AshaOptimizer.ask demoInner
        ⟨2, 2, ⟨1, 0, 2, 16⟩,
         [⟨[(0, .suspended ⟨⟨1, 1⟩, ()⟩ 1),
            (1, .suspended ⟨⟨1, 1⟩, ()⟩ 2)]⟩], 2⟩ 2).2.2.id
      = (AshaOptimizer.ask demoInner
          (AshaOptimizer.withOptions 0 2 ⟨1, 0, 2, 16⟩) 0).2.2.id := by
  decide

theorem getD_set_self (l : List β) (i : Nat) (a d : β) (h : i < l.length) :
    (l.set i a).getD i d = a := by
  induction l generalizing i with
  | nil => simp at h
  | cons hd tl ih =>
    cases i with
    | zero => rfl
    | succ i2 => exact ih i2 (by simpa using h)

/-- C7 (amended): an ask that finds nothing promotable mints a fresh
identifier from the serial id generator (returning the current counter
and advancing it), while a promoting ask reuses an identifier already
suspended in some rung — so identifiers can repeat across asks.  What
does hold: after the promotion that entry is `Finished` in its rung,
no longer suspended, so the same identifier is never promoted a second
time out of the same rung entry. -/
theorem asha_ask_id_provenance [LinearOrder V] (io : InnerOpt σ P V)
    (st : AshaOptimizer σ P V) (idg : Nat) :
    (promoteScanAux st.options st.max_budget st.rungs st.rungs.length = none →
      (AshaOptimizer.ask io st idg).2.2.id = idg ∧
      (AshaOptimizer.ask io st idg).2.1 = idg + 1) ∧
    (∀ rungs2 obs,
      promoteScanAux st.options st.max_budget st.rungs st.rungs.length
          = some (rungs2, obs) →
      (AshaOptimizer.ask io st idg).2.1 = idg ∧
      (AshaOptimizer.ask io st idg).2.2 = obs ∧
      ∃ i rung p v, i < st.rungs.length ∧ st.rungs.get? i = some rung ∧
        (obs.id, RungEntry.suspended p v) ∈ rung.observations ∧
        Table.find obs.id (rungs2.getD i ⟨[]⟩).observations
          = some (RungEntry.finished v)) := by
  constructor
  · intro hnone
    unfold AshaOptimizer.ask
    rw [hnone]
    exact ⟨rfl, rfl⟩
  · intro rungs2 obs hsome
    refine ⟨?_, ?_, ?_⟩
    · unfold AshaOptimizer.ask
      rw [hsome]
    · unfold AshaOptimizer.ask
      rw [hsome]
    · obtain ⟨i, rung, rB, hi, hg, hp, hset⟩ :=
        promoteScan_shape st.options st.max_budget st.rungs st.rungs.length
          rungs2 obs hsome
      obtain ⟨p, v, hbest, hcount, hrB, hobs⟩ :=
        rungPromote_eq st.options st.max_budget i rung rB obs hp
      refine ⟨i, rung, p, v, hi, hg, bestSuspended_mem _ _ _ _ hbest, ?_⟩
      have hgd : (rungs2.getD i ⟨[]⟩) = rB := by
        rw [hset]
        exact getD_set_self _ _ _ _ hi
      rw [hgd, hrB]
      exact Table.find_insert_self _ _ _

/-- Witness for C7 (amended): the fresh path at the empty scheduler
mints id 0 from counter 0, and the promoting path on `demoSt` reuses
id 0 and leaves it `Finished` in rung 0. -/
theorem asha_ask_id_provenance_witness :
    ((AshaOptimizer.ask demoInner (AshaOptimizer.withOptions 0 2 ⟨1, 0, 2, 16⟩)
        0).2.2.id = 0 ∧
     (AshaOptimizer.ask demoInner (AshaOptimizer.withOptions 0 2 ⟨1, 0, 2, 16⟩)
        0).2.1 = 0 + 1) ∧
    ((AshaOptimizer.ask demoInner demoSt 7).2.1 = 7 ∧
     (AshaOptimizer.ask demoInner demoSt 7).2.2 = ⟨0, ⟨⟨2, 1⟩, ()⟩, ()⟩ ∧
     ∃ i rung p v, i < demoSt.rungs.length ∧ demoSt.rungs.get? i = some rung ∧
       ((0 : Nat), RungEntry.suspended p v) ∈ rung.observations ∧
       Table.find 0
           (List.getD
             ([⟨[(0, .finished 1), (1, .suspended ⟨⟨1, 1⟩, ()⟩ 2)]⟩]
               : List (Rung Unit Nat)) i ⟨[]⟩).observations
         = some (RungEntry.finished v)) :=
  ⟨(asha_ask_id_provenance demoInner
      (AshaOptimizer.withOptions 0 2 ⟨1, 0, 2, 16⟩) 0).1 (by decide),
   (asha_ask_id_provenance demoInner demoSt 7).2
     [⟨[(0, .finished 1), (1, .suspended ⟨⟨1, 1⟩, ()⟩ 2)]⟩]
     ⟨0, ⟨⟨2, 1⟩, ()⟩, ()⟩ (by decide)⟩

/-! ## Idempotence of tell (C6) -/

theorem get?_some_lt (l : List β) (j : Nat) (a : β) (h : l.get? j = some a) :
    j < l.length := by
  by_contra hc
  rw [List.get?_eq_none.mpr (by omega)] at h
  exact Option.noConfusion h

theorem getD_of_get? (l : List β) (j : Nat) (a d : β) (h : l.get? j = some a) :
    l.getD j d = a := by
  rw [List.get?_eq_getElem?] at h
  simp [List.getD, h]

theorem getD_set_ne (l : List β) (i j : Nat) (a d : β) (hij : i ≠ j) :
    (l.set i a).getD j d = l.getD j d := by
  induction l generalizing i j with
  | nil => simp
  | cons hd tl ih =>
    cases i with
    | zero =>
      cases j with
      | zero => exact absurd rfl hij
      | succ j2 => rfl
    | succ i2 =>
      cases j with
      | zero => rfl
      | succ j2 => exact ih i2 j2 (by omega)

theorem set_getD_self (l : List β) (i : Nat) (d : β) (h : i < l.length) :
    l.set i (l.getD i d) = l := by
  induction l generalizing i with
  | nil => simp at h
  | cons hd tl ih =>
    cases i with
    | zero => rfl
    | succ i2 =>
      show hd :: tl.set i2 (tl.getD i2 d) = hd :: tl
      rw [ih i2 (by simpa using h)]

theorem extendRungs_lt (l : List (Rung P V)) (i : Nat) :
    i < (extendRungs l i).length := by
  simp only [extendRungs, List.length_append, List.length_replicate]
  omega

theorem extendRungs_eq_self (l : List (Rung P V)) (i : Nat) (h : i < l.length) :
    extendRungs l i = l := by
  unfold extendRungs
  have h0 : i + 1 - l.length = 0 := by omega
  rw [h0]
  simp

theorem length_abandoneOne [LinearOrder V] (r r2 : List (Rung P V))
    (h : abandoneOne r = some r2) : r2.length = r.length := by
  obtain ⟨j, rung, id, p, v, _, _, _, hset⟩ := abandoneOne_shape r r2 h
  rw [hset]
  simp

theorem length_abandonLoop [LinearOrder V] (m t : Nat) (r : List (Rung P V))
    (t2 : Nat) (r2 : List (Rung P V)) (h : abandonLoop m t r = some (t2, r2)) :
    r2.length = r.length := by
  induction t generalizing r with
  | zero =>
    simp only [abandonLoop, Option.some.injEq, Prod.mk.injEq] at h
    rw [← h.2]
  | succ t ih =>
    simp only [abandonLoop] at h
    split at h
    · split at h
      · rename_i r3 h3
        rw [ih r3 h, length_abandoneOne r r3 h3]
      · exact Option.noConfusion h
    · simp only [Option.some.injEq, Prod.mk.injEq] at h
      rw [← h.2]

theorem abandoneOne_preserves_entry [LinearOrder V] (id rn : Nat)
    (q : Budgeted P) (rungs rungs2 : List (Rung P V))
    (h : abandoneOne rungs = some rungs2)
    (he : ∃ e, Table.find id (rungs.getD rn ⟨[]⟩).observations = some e ∧
      ∀ p w, e = RungEntry.suspended p w → p = q) :
    ∃ e, Table.find id (rungs2.getD rn ⟨[]⟩).observations = some e ∧
      ∀ p w, e = RungEntry.suspended p w → p = q := by
  obtain ⟨j, rung, id2, p2, v2, hg, _, _, hset⟩ := abandoneOne_shape rungs rungs2 h
  obtain ⟨e, hfind, hq⟩ := he
  have hjlen : j < rungs.length := get?_some_lt _ _ _ hg
  by_cases hj : j = rn
  · subst hj
    have hgd : rungs.getD j ⟨[]⟩ = rung := getD_of_get? _ _ _ _ hg
    rw [hset, getD_set_self _ _ _ _ hjlen]
    rw [hgd] at hfind
    by_cases hid : id2 = id
    · subst hid
      exact ⟨RungEntry.finished v2, Table.find_insert_self _ _ _,
        fun p w hcontra => RungEntry.noConfusion hcontra⟩
    · refine ⟨e, ?_, hq⟩
      rw [Table.find_insert_ne id id2 _ _ (fun heq => hid heq.symm)]
      exact hfind
  · rw [hset, getD_set_ne _ _ _ _ _ hj]
    exact ⟨e, hfind, hq⟩

theorem abandonLoop_preserves_entry [LinearOrder V] (m id rn : Nat)
    (q : Budgeted P) (t : Nat) (rungs : List (Rung P V)) (t2 : Nat)
    (rungs2 : List (Rung P V))
    (h : abandonLoop m t rungs = some (t2, rungs2))
    (he : ∃ e, Table.find id (rungs.getD rn ⟨[]⟩).observations = some e ∧
      ∀ p w, e = RungEntry.suspended p w → p = q) :
    ∃ e, Table.find id (rungs2.getD rn ⟨[]⟩).observations = some e ∧
      ∀ p w, e = RungEntry.suspended p w → p = q := by
  induction t generalizing rungs with
  | zero =>
    simp only [abandonLoop, Option.some.injEq, Prod.mk.injEq] at h
    rw [← h.2]
    exact he
  | succ t ih =>
    simp only [abandonLoop] at h
    split at h
    · split at h
      · rename_i r3 h3
        exact ih r3 h (abandoneOne_preserves_entry id rn q rungs r3 h3 he)
      · exact Option.noConfusion h
    · simp only [Option.some.injEq, Prod.mk.injEq] at h
      rw [← h.2]
      exact he

/-- State of an ASHA optimizer after a successful non-terminal tell:
configuration fields unchanged, suspension counter within the bound,
the target rung index valid, and the told id present in its rung with
its parameter equal to the told parameter whenever still suspended. -/
theorem tell_ok_post [LinearOrder V] (io : InnerOpt σ P V)
    (st st1 : AshaOptimizer σ P V) (obs : Obs (Budgeted P) V)
    (hlt : obs.param.budget.consumption < st.max_budget)
    (h : AshaOptimizer.tell io st obs = RunResult.ok st1) :
    st1.max_budget = st.max_budget ∧ st1.options = st.options ∧
    st1.total_suspended ≤ st.options.max_suspended ∧
    ¬ 1000 ≤ st.get_rung_num obs.param.budget.consumption ∧
    st.get_rung_num obs.param.budget.consumption < st1.rungs.length ∧
    ∃ e, Table.find obs.id
        (st1.rungs.getD (st.get_rung_num obs.param.budget.consumption)
          ⟨[]⟩).observations = some e ∧
      ∀ p w, e = RungEntry.suspended p w → p = obs.param := by
  have hnle : ¬ st.max_budget ≤ obs.param.budget.consumption := not_le.mpr hlt
  simp only [AshaOptimizer.tell] at h
  rw [if_neg hnle] at h
  split at h
  · exact RunResult.noConfusion h
  · rename_i hn1000
    split at h
    · rename_i entry hfind
      cases entry with
      | suspended p2 w =>
        split at h
        · rename_i tr htr
          injection h with h
          subst h
          refine ⟨rfl, rfl, abandonLoop_le _ _ _ _ _ htr, hn1000, ?_, ?_⟩
          · show st.get_rung_num obs.param.budget.consumption < tr.2.length
            have hL := length_abandonLoop _ _ _ _ _ htr
            simp only [List.length_set] at hL
            have := extendRungs_lt st.rungs
              (st.get_rung_num obs.param.budget.consumption)
            omega
          · refine abandonLoop_preserves_entry _ _ _ _ _ _ _ _ htr ?_
            rw [getD_set_self _ _ _ _ (extendRungs_lt _ _)]
            exact ⟨RungEntry.suspended obs.param w, Table.find_insert_self _ _ _,
              fun p3 w3 heq => by injection heq with hp _; exact hp.symm⟩
        · exact RunResult.noConfusion h
      | finished w =>
        split at h
        · rename_i tr htr
          injection h with h
          subst h
          refine ⟨rfl, rfl, abandonLoop_le _ _ _ _ _ htr, hn1000, ?_, ?_⟩
          · show st.get_rung_num obs.param.budget.consumption < tr.2.length
            have hL := length_abandonLoop _ _ _ _ _ htr
            simp only [List.length_set] at hL
            have := extendRungs_lt st.rungs
              (st.get_rung_num obs.param.budget.consumption)
            omega
          · refine abandonLoop_preserves_entry _ _ _ _ _ _ _ _ htr ?_
            rw [getD_set_self _ _ _ _ (extendRungs_lt _ _)]
            exact ⟨RungEntry.finished w, hfind,
              fun p3 w3 heq => RungEntry.noConfusion heq⟩
        · exact RunResult.noConfusion h
    · rename_i hfind
      split at h
      · rename_i tr htr
        injection h with h
        subst h
        refine ⟨rfl, rfl, abandonLoop_le _ _ _ _ _ htr, hn1000, ?_, ?_⟩
        · show st.get_rung_num obs.param.budget.consumption < tr.2.length
          have hL := length_abandonLoop _ _ _ _ _ htr
          simp only [List.length_set] at hL
          have := extendRungs_lt st.rungs
            (st.get_rung_num obs.param.budget.consumption)
          omega
        · refine abandonLoop_preserves_entry _ _ _ _ _ _ _ _ htr ?_
          rw [getD_set_self _ _ _ _ (extendRungs_lt _ _)]
          exact ⟨RungEntry.suspended obs.param obs.value,
            Table.find_insert_self _ _ _,
            fun p3 w3 heq => by injection heq with hp _; exact hp.symm⟩
      · exact RunResult.noConfusion h

/-- C6 counterexample: Hyperband tell is not idempotent.  In a
reachable two-bracket state owning id 0, the first tell of
(id 0, value 5, consumption 1) succeeds, but because tell removes the
owner record, the identical second tell fails with
`UnknownObservation` instead of succeeding. -/
theorem hyperband_tell_not_idempotent_cex :
    HyperbandOptimizer.tell demoInner demoHbAsked ⟨0, ⟨⟨1, 1⟩, ()⟩, 5⟩
      = RunResult.ok
          ⟨[⟨⟨1, 2, ⟨1, 0, 2, 4⟩, [⟨[(0, .suspended ⟨⟨1, 1⟩, ()⟩ 5)]⟩], 1⟩, 1⟩,
            ⟨⟨0, 2, ⟨1, 1, 2, 4⟩, [], 0⟩, 0⟩], []⟩ ∧
    HyperbandOptimizer.tell demoInner
        ⟨[⟨⟨1, 2, ⟨1, 0, 2, 4⟩, [⟨[(0, .suspended ⟨⟨1, 1⟩, ()⟩ 5)]⟩], 1⟩, 1⟩,
          ⟨⟨0, 2, ⟨1, 1, 2, 4⟩, [], 0⟩, 0⟩], []⟩
        ⟨0, ⟨⟨1, 1⟩, ()⟩, 5⟩
      = RunResult.err ErrorKind.unknownObservation := by
  decide

/-- C6 (amended): the ASHA tell of a non-terminal report is
idempotent: a second tell of the identical observation succeeds and
leaves the whole optimizer state (rungs, suspension counter and inner
optimizer state included) exactly as after the first — the entry for
the id is overwritten in place, never duplicated.  (Terminal reports,
with consumption at or above the maximum budget, are forwarded to the
inner optimizer on every tell; and the Hyperband tell is not
idempotent at all, since it removes the owner record — see the
counterexample.) -/
theorem asha_tell_idempotent [LinearOrder V] (io : InnerOpt σ P V)
    (st st1 : AshaOptimizer σ P V) (obs : Obs (Budgeted P) V)
    (hlt : obs.param.budget.consumption < st.max_budget)
    (h : AshaOptimizer.tell io st obs = RunResult.ok st1) :
    AshaOptimizer.tell io st1 obs = RunResult.ok st1 := by
  obtain ⟨hmb, hopts, htot, hn1000, hlen, e, hfind, hq⟩ :=
    tell_ok_post io st st1 obs hlt h
  have hrn : st1.get_rung_num obs.param.budget.consumption
      = st.get_rung_num obs.param.budget.consumption := by
    unfold AshaOptimizer.get_rung_num
    rw [hopts]
  have hnle : ¬ st1.max_budget ≤ obs.param.budget.consumption := by
    rw [hmb]; exact not_le.mpr hlt
  have htot1 : st1.total_suspended ≤ st1.options.max_suspended := by
    rw [hopts]; exact htot
  have hext : extendRungs st1.rungs
      (st.get_rung_num obs.param.budget.consumption) = st1.rungs :=
    extendRungs_eq_self _ _ hlen
  have hsetself : st1.rungs.set (st.get_rung_num obs.param.budget.consumption)
      (st1.rungs.getD (st.get_rung_num obs.param.budget.consumption) ⟨[]⟩)
      = st1.rungs := set_getD_self _ _ _ hlen
  have hloop := abandonLoop_of_le st1.options.max_suspended
    st1.total_suspended st1.rungs htot1
  have heta : (⟨(st1.rungs.getD (st.get_rung_num obs.param.budget.consumption)
      ⟨[]⟩).observations⟩ : Rung P V)
      = st1.rungs.getD (st.get_rung_num obs.param.budget.consumption) ⟨[]⟩ := rfl
  cases e with
  | suspended p w =>
    have hp : p = obs.param := hq p w rfl
    subst hp
    have hins : Table.insert obs.id (RungEntry.suspended obs.param w)
        (st1.rungs.getD (st.get_rung_num obs.param.budget.consumption)
          ⟨[]⟩).observations
        = (st1.rungs.getD (st.get_rung_num obs.param.budget.consumption)
          ⟨[]⟩).observations :=
      Table.insert_self_of_find _ _ _ hfind
    simp only [AshaOptimizer.tell, hrn, if_neg hn1000, hext, if_neg hnle,
      hfind, hins, heta, hsetself, hloop]
  | finished w =>
    simp only [AshaOptimizer.tell, hrn, if_neg hn1000, hext, if_neg hnle,
      hfind, hsetself, hloop]

/-- Witness for C6 (amended): a concrete non-terminal tell, repeated,
reproduces the post-state of the first exactly. -/
theorem asha_tell_idempotent_witness :
    AshaOptimizer.tell demoInner
        ⟨1, 2, ⟨1, 0, 2, 16⟩, [⟨[(0, .suspended ⟨⟨1, 1⟩, ()⟩ 1)]⟩], 1⟩
        ⟨0, ⟨⟨1, 1⟩, ()⟩, 1⟩
      = RunResult.ok
          ⟨1, 2, ⟨1, 0, 2, 16⟩, [⟨[(0, .suspended ⟨⟨1, 1⟩, ()⟩ 1)]⟩], 1⟩ :=
  asha_tell_idempotent demoInner
    ⟨0, 2, ⟨1, 0, 2, 16⟩, [], 0⟩
    ⟨1, 2, ⟨1, 0, 2, 16⟩, [⟨[(0, .suspended ⟨⟨1, 1⟩, ()⟩ 1)]⟩], 1⟩
    ⟨0, ⟨⟨1, 1⟩, ()⟩, 1⟩ (by decide) (by decide)

end Yamakan
